import Mathlib

/-!
# Traffic-Control-System: partition / fill / gather pipeline and matrix kernel

Shallow embedding of `src/MPI.cpp` (the partition / fill / `MPI_Gather` skeleton that
`trafficFlowMonitoring`, `congestionMonitoring`, `vehicleCounting`, ... repeat with
different loop bodies) and of `matrixMultiplication` in `src/OpenMP.cpp`.

Conventions of the embedding.

* A `vector<int>` is a `List Int`; `v[i]` outside `0 .. v.size()-1` is undefined
  behaviour in C++ and is the `none` result here.
* `rank`, `size`, `chunk_size`, `start`, `end` and the loop counters are C++ `int`s,
  narrowed from `size_t`.  `partition` and the fill loops compute them in the natural
  numbers, which is exact as long as the dataset length fits an `int`: then every
  intermediate value lies in `0 .. N` (`partition_no_wrap`).  The general theorems on
  the partition and the fill carry the bound `N <= INT_MAX = 2147483647`.
* The arithmetic of the matrix kernel is 32-bit `int`: `wrapInt` reduces every product
  and every sum to the two's complement range.  The theorems that state exact sums
  assume that no product and no partial sum leaves the range (`NoOverflow`).
* `srand(seed); rand(); rand(); ...` is a stream fixed by the seed: `gen seed k`
  is the value of the `k`-th call of `rand()` after `srand(seed)`.
* `#pragma omp parallel for collapse(2)` fixes the iteration space of the two outer
  loops before the first iteration, so `matrix_b[0].size()` is read on entry; apart
  from that the loops are read in their sequential order.
-/

namespace TrafficControl

/-! ## Constants of `src/MPI.cpp` and `src/OpenMP.cpp` -/

def NUM_SENSORS : Nat := 100
def NUM_CAMERAS : Nat := 50
def NUM_VEHICLES : Nat := 10000
def NUM_INTERSECTIONS : Nat := 50
def MATRIX_SIZE : Nat := 200

/-- The largest value of a 32-bit `int`. -/
def INT_MAX : Nat := 2147483647

/-- The value is representable as a 32-bit `int`. -/
def InInt (x : Int) : Prop := -2147483648 ≤ x ∧ x ≤ 2147483647

instance (x : Int) : Decidable (InInt x) := by
  unfold InInt; infer_instance

/-- The result of a 32-bit `int` operation whose mathematical value is `x`: `x` reduced
modulo `2^32` to the range `-2^31 .. 2^31 - 1`. -/
def wrapInt (x : Int) : Int := (x + 2147483648) % 4294967296 - 2147483648

/-! ## Partition computation (MPI.cpp, first three lines of every function) -/

/-- The pair `(start, end)` computed by
`start = rank * chunk_size; end = (rank == size - 1) ? data.size() : start + chunk_size`,
in the natural numbers: the values of the code's `int` variables whenever
`n = data.size()` is at most `INT_MAX` and `rank < size` (`partition_no_wrap`). -/
def partition (n size rank : Nat) : Nat × Nat :=
  let chunk_size := n / size
  let start := rank * chunk_size
  let stop := if rank = size - 1 then n else start + chunk_size
  (start, stop)

/-- Index `i` is visited by the loop `for (i = start; i < end; ++i)` of worker `rank`. -/
def inPartition (n size rank i : Nat) : Prop :=
  (partition n size rank).1 ≤ i ∧ i < (partition n size rank).2

instance (n size rank i : Nat) : Decidable (inPartition n size rank i) := by
  unfold inPartition; infer_instance

/-! ## Fill loop and `MPI_Gather` (MPI.cpp) -/

/-- One assignment `data[i] = v`; `none` when `i` is not an index of `data`. -/
def writeAt (data : List Int) (i : Nat) (v : Int) : Option (List Int) :=
  if i < data.length then some (data.set i v) else none

/-- The loop `for (int i = start; i < end; ++i) data[i] = payload(i);`. -/
def fillLoop (payload : Nat → Int) (start stop : Nat) (data : List Int) : Option (List Int) :=
  (List.range' start (stop - start)).foldlM (fun d i => writeAt d i (payload i)) data

/-- The part of a monitoring function before the gather, run by process `rank`:
partition computation and fill loop.  `payload rank start i` is the value the loop
body stores at index `i`.  The `int` variables are computed in the natural numbers,
which is exact for `data.size()` at most `INT_MAX`. -/
def fillPartition (payload : Nat → Nat → Nat → Int) (data : List Int) (rank size : Nat) :
    Option (List Int) :=
  let chunk_size := data.length / size
  let start := rank * chunk_size
  let stop := if rank = size - 1 then data.length else start + chunk_size
  fillLoop (payload rank start) start stop data

/-- The root's side of the transfer from one process in `MPI_Gather`: `count`
elements read from `sendbuf[0 .. count-1]` are stored at
`recvbuf[off .. off+count-1]`. -/
def copyBlock (sendbuf : List Int) (count off : Nat) (recvbuf : List Int) : Option (List Int) :=
  (List.range count).foldlM
    (fun buf t => do
      let v ← sendbuf[t]?
      writeAt buf (off + t) v) recvbuf

/-- `MPI_Gather(sendbuf, count, MPI_INT, recvbuf, count, MPI_INT, 0, comm)` as seen at
the root: the block of process `w` lands at offset `w * count` of `recvbuf`
(MPI standard semantics).  `sendbuf w` is the send buffer of process `w`. -/
def MPI_Gather (sendbuf : Nat → Option (List Int)) (count size : Nat) (recvbuf : List Int) :
    Option (List Int) :=
  (List.range size).foldlM
    (fun buf w => do
      let s ← sendbuf w
      copyBlock s count (w * count) buf) recvbuf

/-- The skeleton shared by `trafficFlowMonitoring`, `congestionMonitoring`,
`vehicleCounting`, ...: every process `w` of the `size` processes owns a copy of
`data`, fills its partition, and passes `data.data() + start` with count
`chunk_size` to `MPI_Gather`; the result is `global_data` at rank 0, which starts as
`vector<int> global_data(data.size())`, all zeros. -/
def gatherAtRoot (payload : Nat → Nat → Nat → Int) (data : List Int) (size : Nat) :
    Option (List Int) :=
  let chunk_size := data.length / size
  MPI_Gather
    (fun w => (fillPartition payload data w size).map (fun d => d.drop (w * chunk_size)))
    chunk_size size (List.replicate data.length 0)

/-- The body `rand() % 100` after `srand(rank)`: index `i` gets the value of call
number `i - start`. -/
def randPayload (gen : Nat → Nat → Nat) (m : Nat) (rank start i : Nat) : Int :=
  ((gen rank (i - start) % m : Nat) : Int)

/-- The local `vehicle_data` of process `rank` after the fill loop of
`trafficFlowMonitoring`. -/
def trafficFlowMonitoring_fill (gen : Nat → Nat → Nat) (vehicle_data : List Int)
    (rank size : Nat) : Option (List Int) :=
  fillPartition (randPayload gen 100) vehicle_data rank size

/-- The `global_data` printed by rank 0 in `trafficFlowMonitoring`. -/
def trafficFlowMonitoring (gen : Nat → Nat → Nat) (vehicle_data : List Int) (size : Nat) :
    Option (List Int) :=
  gatherAtRoot (randPayload gen 100) vehicle_data size

/-- The local `traffic_density` of process `rank` after the fill loop of
`congestionMonitoring`. -/
def congestionMonitoring_fill (gen : Nat → Nat → Nat) (traffic_density : List Int)
    (rank size : Nat) : Option (List Int) :=
  fillPartition (randPayload gen 100) traffic_density rank size

/-- The `global_data` printed by rank 0 in `congestionMonitoring`. -/
def congestionMonitoring (gen : Nat → Nat → Nat) (traffic_density : List Int) (size : Nat) :
    Option (List Int) :=
  gatherAtRoot (randPayload gen 100) traffic_density size

/-- A fill whose value depends on the index only (`fill_fn(i)` of the pipeline). -/
def purePayload (f : Nat → Int) (_rank _start i : Nat) : Int := f i

/-- The loop body of `trafficSimulation` at index `i`, after `srand(rank)`:
`traffic_flow[i] = rand() % 100; incidents[i] = rand() % 2;`.  The state is the pair
`(traffic_flow, incidents)`. -/
def simulationStep (gen : Nat → Nat → Nat) (rank start : Nat) (s : List Int × List Int)
    (i : Nat) : Option (List Int × List Int) := do
  let traffic_flow ← writeAt s.1 i ((gen rank (2 * (i - start)) % 100 : Nat) : Int)
  let incidents ← writeAt s.2 i ((gen rank (2 * (i - start) + 1) % 2 : Nat) : Int)
  pure (traffic_flow, incidents)

/-- The local `(traffic_flow, incidents)` of process `rank` after the partition
computation and the fill loop of `trafficSimulation`; the bounds come from
`traffic_flow.size()` alone.  The `int` variables are computed in the natural numbers,
which is exact for `traffic_flow.size()` at most `INT_MAX`. -/
def trafficSimulation_fill (gen : Nat → Nat → Nat) (traffic_flow incidents : List Int)
    (rank size : Nat) : Option (List Int × List Int) :=
  let chunk_size := traffic_flow.length / size
  let start := rank * chunk_size
  let stop := if rank = size - 1 then traffic_flow.length else start + chunk_size
  (List.range' start (stop - start)).foldlM (simulationStep gen rank start)
    (traffic_flow, incidents)

/-- The value found at index `i` of `global_data` once the blocks of the processes
`0 .. w-1` have arrived: the element filled by the process owning block
`i / chunk_size` for the indices below `w * chunk_size`, and the initial `0` from there
on. -/
def gatheredValue (payload : Nat → Nat → Nat → Int) (chunk_size w i : Nat) : Int :=
  if i < w * chunk_size then payload (i / chunk_size) (i / chunk_size * chunk_size) i else 0

/-! ## Matrix kernel (OpenMP.cpp) -/

/-- A `vector<vector<int>>`. -/
abbrev Matrix := List (List Int)

/-- Entry `m[i][j]`, `0` outside the matrix. -/
def Matrix.entry (m : Matrix) (i j : Nat) : Int := (m.getD i []).getD j 0

/-- `m` has `rows` rows and every row has `cols` elements. -/
def HasDims (rows cols : Nat) (m : Matrix) : Prop :=
  m.length = rows ∧ ∀ i, i < rows → (m.getD i []).length = cols

instance (rows cols : Nat) (m : Matrix) : Decidable (HasDims rows cols m) := by
  unfold HasDims; infer_instance

/-- The statement `result[i][j] += matrix_a[i][k] * matrix_b[k][j];` in `int`
arithmetic. -/
def cellUpdate (matrix_a matrix_b : Matrix) (i j k : Nat) (result : Matrix) : Option Matrix := do
  let ri ← result[i]?
  let rij ← ri[j]?
  let ai ← matrix_a[i]?
  let aik ← ai[k]?
  let bk ← matrix_b[k]?
  let bkj ← bk[j]?
  pure (result.set i (ri.set j (wrapInt (rij + wrapInt (aik * bkj)))))

/-- The loop over `k`, bound `matrix_a[0].size()`. -/
def kLoop (matrix_a matrix_b : Matrix) (i j : Nat) (result : Matrix) : Option Matrix := do
  let a0 ← matrix_a[0]?
  (List.range a0.length).foldlM (fun r k => cellUpdate matrix_a matrix_b i j k r) result

/-- The loop over `j` for one `i`; `cols` is the bound `matrix_b[0].size()`. -/
def jLoop (matrix_a matrix_b : Matrix) (i cols : Nat) (result : Matrix) : Option Matrix :=
  (List.range cols).foldlM (fun r j => kLoop matrix_a matrix_b i j r) result

/-- The triple loop of `matrixMultiplication(matrix_a, matrix_b, result)`; the value is
`result` after the call (`result` is a separate object from both inputs).  The two
outer loops are collapsed, so both bounds `matrix_a.size()` and `matrix_b[0].size()`
are read before the first iteration: an empty `matrix_b` has no result. -/
def matrixMultiplication (matrix_a matrix_b result : Matrix) : Option Matrix := do
  let b0 ← matrix_b[0]?
  (List.range matrix_a.length).foldlM (fun r i => jLoop matrix_a matrix_b i b0.length r) result

/-- No `int` operation of the call `matrixMultiplication(a, b, r)` overflows, for `a` of
`m` rows and `p` columns and `r` of `m` rows and `c` columns: every product
`a[i][k] * b[k][j]` and every value that the cell `(i, j)` takes, `r[i][j]` plus the
sum of the first `K <= p` products, is representable. -/
def NoOverflow (m p c : Nat) (a b r : Matrix) : Prop :=
  (∀ i, i < m → ∀ j, j < c → ∀ k, k < p → InInt (a.entry i k * b.entry k j)) ∧
  (∀ i, i < m → ∀ j, j < c → ∀ K, K < p + 1 →
    InInt (r.entry i j + ∑ k in Finset.range K, a.entry i k * b.entry k j))

instance (m p c : Nat) (a b r : Matrix) : Decidable (NoOverflow m p c a b r) := by
  unfold NoOverflow; infer_instance

/-- Every entry of the `rows`-by-`cols` matrix is representable as an `int`. -/
def IntEntries (rows cols : Nat) (m : Matrix) : Prop :=
  ∀ i, i < rows → ∀ j, j < cols → InInt (m.entry i j)

instance (rows cols : Nat) (m : Matrix) : Decidable (IntEntries rows cols m) := by
  unfold IntEntries; infer_instance

/-- The matrix `vector<vector<int>>(rows, vector<int>(cols, v))`. -/
def fillMatrix (rows cols : Nat) (v : Int) : Matrix := List.replicate rows (List.replicate cols v)

/-- The `n`-by-`n` matrix `vector<vector<int>>(n, vector<int>(n, v))`, as built in `main`. -/
def constMatrix (n : Nat) (v : Int) : Matrix := fillMatrix n n v

/-- The `n`-by-`n` identity matrix. -/
def identityMatrix (n : Nat) : Matrix :=
  (List.range n).map (fun i => (List.range n).map (fun j => if i = j then 1 else 0))

/-! ## Partition lemmas -/

theorem partition_fst (n size rank : Nat) :
    (partition n size rank).1 = rank * (n / size) := rfl

theorem partition_snd_last (n size : Nat) :
    (partition n size (size - 1)).2 = n := by
  simp [partition]

theorem partition_snd_inner (n size rank : Nat) (h : rank ≠ size - 1) :
    (partition n size rank).2 = rank * (n / size) + n / size := by
  simp [partition, h]

theorem mul_chunk_le (n size : Nat) : size * (n / size) ≤ n :=
  Nat.mul_div_le n size

theorem mul_chunk_le_of_le (n size k : Nat) (hk : k ≤ size) : k * (n / size) ≤ n :=
  le_trans (Nat.mul_le_mul_right _ hk) (mul_chunk_le n size)

/-- Bounds `start <= end <= N` of every worker's range. -/
theorem partition_le (n size rank : Nat) (hr : rank < size) :
    (partition n size rank).1 ≤ (partition n size rank).2 ∧ (partition n size rank).2 ≤ n := by
  by_cases h : rank = size - 1
  · subst h
    rw [partition_snd_last, partition_fst]
    exact ⟨mul_chunk_le_of_le n size _ (Nat.sub_le _ _), le_refl _⟩
  · rw [partition_snd_inner n size rank h, partition_fst]
    refine ⟨Nat.le_add_right _ _, ?_⟩
    have h1 : rank + 1 ≤ size := hr
    have h2 := mul_chunk_le_of_le n size (rank + 1) h1
    simpa [Nat.succ_mul] using h2

/-- Every index below `N` is visited by exactly one worker. -/
theorem partition_cover (n size : Nat) (hs : 1 ≤ size) (i : Nat) (hi : i < n) :
    ∃! w, w < size ∧ inPartition n size w i := by
  have hlast : (size - 1) * (n / size) ≤ n := mul_chunk_le_of_le n size _ (Nat.sub_le _ _)
  by_cases hc : i < (size - 1) * (n / size)
  · -- an inner worker
    have hpos : 0 < n / size := by
      rcases Nat.eq_zero_or_pos (n / size) with h0 | h0
      · rw [h0] at hc; simp at hc
      · exact h0
    have hw : i / (n / size) < size - 1 := (Nat.div_lt_iff_lt_mul hpos).2 hc
    refine ⟨i / (n / size), ⟨by omega, ?_⟩, ?_⟩
    · unfold inPartition
      rw [partition_snd_inner n size _ (by omega), partition_fst]
      constructor
      · exact Nat.div_mul_le_self i (n / size)
      · have := Nat.lt_div_mul_add (a := i) hpos
        exact this
    · rintro w ⟨hws, hw1, hw2⟩
      by_cases hwl : w = size - 1
      · subst hwl
        rw [partition_fst] at hw1
        omega
      · rw [partition_snd_inner n size w hwl] at hw2
        rw [partition_fst] at hw1
        have h3 : i < (w + 1) * (n / size) := by simpa [Nat.succ_mul] using hw2
        have h1 : w ≤ i / (n / size) := (Nat.le_div_iff_mul_le hpos).2 hw1
        have h2 : i / (n / size) < w + 1 := (Nat.div_lt_iff_lt_mul hpos).2 h3
        omega
  · -- the last worker
    refine ⟨size - 1, ⟨by omega, ?_⟩, ?_⟩
    · unfold inPartition
      rw [partition_snd_last, partition_fst]
      exact ⟨by omega, hi⟩
    · rintro w ⟨hws, hw1, hw2⟩
      by_contra hne
      rw [partition_snd_inner n size w hne] at hw2
      have h3 : (w + 1) * (n / size) ≤ (size - 1) * (n / size) :=
        Nat.mul_le_mul_right _ (by omega)
      have h4 : (w + 1) * (n / size) = w * (n / size) + n / size := Nat.succ_mul _ _
      omega

/-- Two different workers never visit the same index. -/
theorem partition_disjoint (n size : Nat) (hs : 1 ≤ size) (w1 w2 i : Nat)
    (h1 : w1 < size) (h2 : w2 < size)
    (hi1 : inPartition n size w1 i) (hi2 : inPartition n size w2 i) : w1 = w2 := by
  have hin : i < n := lt_of_lt_of_le hi1.2 (partition_le n size w1 h1).2
  obtain ⟨w, _, huniq⟩ := partition_cover n size hs i hin
  rw [huniq w1 ⟨h1, hi1⟩, huniq w2 ⟨h2, hi2⟩]

/-- Sum of the sizes of the ranges of the first `k` workers, `k < size`. -/
theorem partition_sum_inner (n size k : Nat) (hk : k ≤ size - 1) :
    ∑ w in Finset.range k, ((partition n size w).2 - (partition n size w).1) = k * (n / size) := by
  induction k with
  | zero => simp
  | succ k ih =>
    rw [Finset.sum_range_succ, ih (by omega), partition_snd_inner n size k (by omega),
      partition_fst, Nat.succ_mul, Nat.add_sub_cancel_left]

/-- The sizes of all ranges add up to `N`. -/
theorem partition_sum (n size : Nat) (hs : 1 ≤ size) :
    ∑ w in Finset.range size, ((partition n size w).2 - (partition n size w).1) = n := by
  obtain ⟨k, rfl⟩ : ∃ k, size = k + 1 := ⟨size - 1, by omega⟩
  rw [Finset.sum_range_succ, partition_sum_inner n (k + 1) k (by simp)]
  have h1 : (partition n (k + 1) k).2 = n := by
    simpa using partition_snd_last n (k + 1)
  rw [h1, partition_fst]
  have := mul_chunk_le_of_le n (k + 1) k (by omega)
  exact Nat.add_sub_cancel' this


/-! ## Loops as folds: an invariant rule -/

/-- Invariant rule for a counted loop in the `Option` monad: the loop runs to the end
and the invariant holds there. -/
theorem foldlM_range_inv {σ : Type} (f : σ → Nat → Option σ) (P : Nat → σ → Prop)
    (n : Nat) (s0 : σ) (h0 : P 0 s0)
    (hstep : ∀ k s, k < n → P k s → ∃ s', f s k = some s' ∧ P (k + 1) s') :
    ∃ s', (List.range n).foldlM f s0 = some s' ∧ P n s' := by
  induction n with
  | zero => exact ⟨s0, by simp, h0⟩
  | succ n ih =>
    obtain ⟨s1, hs1, hP1⟩ := ih (fun k s hk hP => hstep k s (Nat.lt_succ_of_lt hk) hP)
    obtain ⟨s2, hs2, hP2⟩ := hstep n s1 (Nat.lt_succ_self n) hP1
    refine ⟨s2, ?_, hP2⟩
    rw [List.range_succ, List.foldlM_append, hs1]
    simp [hs2]

/-- The same rule for a loop that starts at `start`. -/
theorem foldlM_range'_inv {σ : Type} (f : σ → Nat → Option σ) (P : Nat → σ → Prop)
    (start n : Nat) (s0 : σ) (h0 : P 0 s0)
    (hstep : ∀ t s, t < n → P t s → ∃ s', f s (start + t) = some s' ∧ P (t + 1) s') :
    ∃ s', (List.range' start n).foldlM f s0 = some s' ∧ P n s' := by
  rw [List.range'_eq_map_range, List.foldlM_map]
  exact foldlM_range_inv (fun s t => f s (start + t)) P n s0 h0 hstep

/-! ## The fill loop -/

/-- The fill loop over `[start, stop)` with `stop <= data.size()` runs to the end,
stores `payload i` at the indices of the range and leaves every other element as it
was. -/
theorem fillLoop_spec (payload : Nat → Int) (start stop : Nat) (data : List Int)
    (hstop : stop ≤ data.length) :
    ∃ d, fillLoop payload start stop data = some d ∧ d.length = data.length ∧
      ∀ i, d[i]? = if start ≤ i ∧ i < stop then some (payload i) else data[i]? := by
  unfold fillLoop
  obtain ⟨d, hd, hlen, hP⟩ := foldlM_range'_inv
    (fun d i => writeAt d i (payload i))
    (fun t d => d.length = data.length ∧
      ∀ i, d[i]? = if start ≤ i ∧ i < start + t then some (payload i) else data[i]?)
    start (stop - start) data ⟨rfl, fun i => by rw [if_neg (by omega)]⟩
    (by
      rintro t d ht ⟨hlen, hd⟩
      have hlt : start + t < d.length := by omega
      refine ⟨d.set (start + t) (payload (start + t)), by simp [writeAt, hlt], by simp [hlen], ?_⟩
      intro i
      rw [List.getElem?_set, hd i]
      by_cases hi : start + t = i
      · subst hi; simp [hlt]
      · simp only [hi, if_false]
        by_cases h2 : start ≤ i ∧ i < start + t
        · rw [if_pos h2, if_pos ⟨h2.1, by omega⟩]
        · rw [if_neg h2, if_neg (by omega)])
  refine ⟨d, hd, hlen, fun i => ?_⟩
  rw [hP i]
  by_cases h : start ≤ i ∧ i < stop
  · rw [if_pos h, if_pos ⟨h.1, by omega⟩]
  · rw [if_neg h, if_neg (by omega)]

/-- The partition and fill part of a monitoring function run by a valid rank never
leaves the dataset: it returns, the length is unchanged, the worker's own range
holds the payload and every other element is untouched. -/
theorem fillPartition_spec (payload : Nat → Nat → Nat → Int) (data : List Int)
    (rank size : Nat) (hr : rank < size) :
    ∃ d, fillPartition payload data rank size = some d ∧ d.length = data.length ∧
      ∀ i, d[i]? = if inPartition data.length size rank i
        then some (payload rank (rank * (data.length / size)) i) else data[i]? :=
  fillLoop_spec _ _ _ data (partition_le data.length size rank hr).2

/-! ## The paired fill of `trafficSimulation` -/

/-- A loop in the `Option` monad whose body fails at one of its elements, in every
state the loop can reach, has no result. -/
theorem foldlM_none_of_fail {σ α : Type} (f : σ → α → Option σ) (P : σ → Prop)
    (hpres : ∀ s a s', P s → f s a = some s' → P s') (x : α)
    (hfail : ∀ s, P s → f s x = none) (l : List α) (hx : x ∈ l) (s0 : σ) (h0 : P s0) :
    l.foldlM f s0 = none := by
  induction l generalizing s0 with
  | nil => simp at hx
  | cons a l ih =>
    rw [List.foldlM_cons]
    cases hfa : f s0 a with
    | none => rfl
    | some s1 =>
      have hne : x ≠ a := by
        intro e
        rw [← e, hfail s0 h0] at hfa
        exact Option.noConfusion hfa
      have hxl : x ∈ l := by
        rcases List.mem_cons.1 hx with h | h
        · exact absurd h hne
        · exact h
      exact ih hxl s1 (hpres s0 a s1 h0 hfa)

/-- With `incidents` at least as long as `traffic_flow`, the fill of `trafficSimulation`
by a valid rank runs to the end; both sequences keep their lengths, both are written
at exactly the indices of the partition of `traffic_flow`, and every other element of
either is as before. -/
theorem trafficSimulation_fill_spec (gen : Nat → Nat → Nat) (traffic_flow incidents : List Int)
    (rank size : Nat) (hr : rank < size) (hlen : traffic_flow.length ≤ incidents.length) :
    ∃ tf inc, trafficSimulation_fill gen traffic_flow incidents rank size = some (tf, inc) ∧
      tf.length = traffic_flow.length ∧ inc.length = incidents.length ∧
      (∀ i, tf[i]? = if inPartition traffic_flow.length size rank i
        then some ((gen rank (2 * (i - rank * (traffic_flow.length / size))) % 100 : Nat) : Int)
        else traffic_flow[i]?) ∧
      (∀ i, inc[i]? = if inPartition traffic_flow.length size rank i
        then some ((gen rank (2 * (i - rank * (traffic_flow.length / size)) + 1) % 2 : Nat) : Int)
        else incidents[i]?) := by
  have hb := partition_le traffic_flow.length size rank hr
  obtain ⟨⟨tf, inc⟩, hres, h1, h2, h3, h4⟩ := foldlM_range'_inv
    (simulationStep gen rank (partition traffic_flow.length size rank).1)
    (fun t s => s.1.length = traffic_flow.length ∧ s.2.length = incidents.length ∧
      (∀ i, s.1[i]? = if (partition traffic_flow.length size rank).1 ≤ i ∧
            i < (partition traffic_flow.length size rank).1 + t
        then some ((gen rank (2 * (i - (partition traffic_flow.length size rank).1)) % 100 : Nat)
          : Int)
        else traffic_flow[i]?) ∧
      (∀ i, s.2[i]? = if (partition traffic_flow.length size rank).1 ≤ i ∧
            i < (partition traffic_flow.length size rank).1 + t
        then some
          ((gen rank (2 * (i - (partition traffic_flow.length size rank).1) + 1) % 2 : Nat) : Int)
        else incidents[i]?))
    (partition traffic_flow.length size rank).1
    ((partition traffic_flow.length size rank).2 - (partition traffic_flow.length size rank).1)
    (traffic_flow, incidents)
    ⟨rfl, rfl, fun i => by rw [if_neg (by omega)], fun i => by rw [if_neg (by omega)]⟩
    (by
      rintro t ⟨tf, inc⟩ ht ⟨h1, h2, h3, h4⟩
      simp only at h1 h2 h3 h4
      have hlt1 : (partition traffic_flow.length size rank).1 + t < tf.length := by omega
      have hlt2 : (partition traffic_flow.length size rank).1 + t < inc.length := by omega
      refine ⟨(tf.set ((partition traffic_flow.length size rank).1 + t)
            ((gen rank (2 * ((partition traffic_flow.length size rank).1 + t -
              (partition traffic_flow.length size rank).1)) % 100 : Nat) : Int),
          inc.set ((partition traffic_flow.length size rank).1 + t)
            ((gen rank (2 * ((partition traffic_flow.length size rank).1 + t -
              (partition traffic_flow.length size rank).1) + 1) % 2 : Nat) : Int)),
        by simp [simulationStep, writeAt, hlt1, hlt2],
        by simp [h1], by simp [h2], fun i => ?_, fun i => ?_⟩
      · simp only [List.getElem?_set, h3 i]
        by_cases hi : (partition traffic_flow.length size rank).1 + t = i
        · subst hi; simp [hlt1]
        · rw [if_neg hi]
          by_cases hc : (partition traffic_flow.length size rank).1 ≤ i ∧
              i < (partition traffic_flow.length size rank).1 + t
          · rw [if_pos hc, if_pos ⟨hc.1, by omega⟩]
          · rw [if_neg hc, if_neg (by omega)]
      · simp only [List.getElem?_set, h4 i]
        by_cases hi : (partition traffic_flow.length size rank).1 + t = i
        · subst hi; simp [hlt2]
        · rw [if_neg hi]
          by_cases hc : (partition traffic_flow.length size rank).1 ≤ i ∧
              i < (partition traffic_flow.length size rank).1 + t
          · rw [if_pos hc, if_pos ⟨hc.1, by omega⟩]
          · rw [if_neg hc, if_neg (by omega)])
  refine ⟨tf, inc, hres, h1, h2, fun i => ?_, fun i => ?_⟩
  · rw [h3 i]
    by_cases hc : inPartition traffic_flow.length size rank i
    · rw [if_pos hc, if_pos ⟨hc.1, by have := hc.2; omega⟩, partition_fst]
    · rw [if_neg hc, if_neg (fun h => hc ⟨h.1, by have := h.2; omega⟩)]
  · rw [h4 i]
    by_cases hc : inPartition traffic_flow.length size rank i
    · rw [if_pos hc, if_pos ⟨hc.1, by have := hc.2; omega⟩, partition_fst]
    · rw [if_neg hc, if_neg (fun h => hc ⟨h.1, by have := h.2; omega⟩)]

/-- When the partition of `traffic_flow` holds an index that `incidents` does not have,
the fill of `trafficSimulation` writes `incidents` out of bounds. -/
theorem trafficSimulation_fill_oob (gen : Nat → Nat → Nat) (traffic_flow incidents : List Int)
    (rank size i : Nat) (hi : inPartition traffic_flow.length size rank i)
    (hout : incidents.length ≤ i) :
    trafficSimulation_fill gen traffic_flow incidents rank size = none := by
  apply foldlM_none_of_fail
    (simulationStep gen rank (partition traffic_flow.length size rank).1)
    (fun s => s.2.length = incidents.length) ?_ i ?_
    (List.range' (partition traffic_flow.length size rank).1
      ((partition traffic_flow.length size rank).2 - (partition traffic_flow.length size rank).1))
    ?_ (traffic_flow, incidents) rfl
  · rintro ⟨tf, inc⟩ a ⟨tf', inc'⟩ hP hstep
    simp only at hP
    simp only [simulationStep, writeAt, Option.bind_eq_bind, Option.pure_def] at hstep
    by_cases h1 : a < tf.length
    · by_cases h2 : a < inc.length
      · simp [h1, h2] at hstep
        rw [← hstep.2]; simpa using hP
      · simp [h1, h2] at hstep
    · simp [h1] at hstep
  · rintro ⟨tf, inc⟩ hP
    simp only at hP
    have h2 : ¬ i < inc.length := by omega
    simp only [simulationStep, writeAt, Option.bind_eq_bind, Option.pure_def]
    by_cases h1 : i < tf.length
    · simp [h1, h2]
    · simp [h1]
  · rw [List.mem_range'_1]
    exact ⟨hi.1, by have := hi.2; have := hi.1; omega⟩

/-- The last rank owns the last index of a non-empty dataset. -/
theorem inPartition_last (n size : Nat) (hn : 0 < n) (hs : 1 ≤ size) :
    inPartition n size (size - 1) (n - 1) := by
  unfold inPartition
  rw [partition_snd_last, partition_fst]
  refine ⟨?_, by omega⟩
  rcases Nat.eq_zero_or_pos (n / size) with h0 | h0
  · rw [h0]; simp
  · have h1 := mul_chunk_le n size
    have h2 : (size - 1) * (n / size) + n / size = size * (n / size) := by
      rw [← Nat.succ_mul]; congr 1; omega
    omega

/-- The call `trafficSimulation(vehicle_data, incidents, rank, size)` of `main` passes
`NUM_VEHICLES = 10000` and `NUM_SENSORS = 100` elements: on every process count the
last rank writes `incidents[9999]`, outside the sequence. -/
theorem trafficSimulation_fill_main_oob (gen : Nat → Nat → Nat)
    (vehicle_data incidents : List Int) (hv : vehicle_data.length = NUM_VEHICLES)
    (hi : incidents.length = NUM_SENSORS) (size : Nat) (hs : 1 ≤ size) :
    trafficSimulation_fill gen vehicle_data incidents (size - 1) size = none := by
  apply trafficSimulation_fill_oob gen vehicle_data incidents (size - 1) size
    (vehicle_data.length - 1)
  · exact inPartition_last vehicle_data.length size (by rw [hv]; decide) hs
  · rw [hv, hi]; decide

/-! ## The gather -/

/-- The block `[w * chunk, w * chunk + chunk)` that is sent lies in the range that worker
`w` has filled. -/
theorem inPartition_of_block (n size w i : Nat) (hw : w < size) (h1 : w * (n / size) ≤ i)
    (h2 : i < w * (n / size) + n / size) : inPartition n size w i := by
  unfold inPartition
  rw [partition_fst]
  refine ⟨h1, ?_⟩
  by_cases hl : w = size - 1
  · subst hl
    rw [partition_snd_last]
    have h3 := mul_chunk_le_of_le n size (size - 1 + 1) (by omega)
    rw [Nat.succ_mul] at h3
    omega
  · rw [partition_snd_inner n size w hl]; exact h2

/-- Copying one block: `count` elements of the send buffer land at offset `off`, the
rest of the receive buffer is unchanged. -/
theorem copyBlock_spec (sendbuf : List Int) (count off : Nat) (recvbuf : List Int)
    (hsend : count ≤ sendbuf.length) (hrecv : off + count ≤ recvbuf.length) :
    ∃ buf, copyBlock sendbuf count off recvbuf = some buf ∧ buf.length = recvbuf.length ∧
      ∀ i, buf[i]? = if off ≤ i ∧ i < off + count then sendbuf[i - off]? else recvbuf[i]? := by
  unfold copyBlock
  apply foldlM_range_inv
    (fun buf t => do
      let v ← sendbuf[t]?
      writeAt buf (off + t) v)
    (fun t buf => buf.length = recvbuf.length ∧
      ∀ i, buf[i]? = if off ≤ i ∧ i < off + t then sendbuf[i - off]? else recvbuf[i]?)
  · exact ⟨rfl, fun i => by rw [if_neg (by omega)]⟩
  · rintro t buf ht ⟨hlen, hb⟩
    have hts : t < sendbuf.length := by omega
    have hlt : off + t < buf.length := by omega
    refine ⟨buf.set (off + t) sendbuf[t], ?_, by simp [hlen], ?_⟩
    · simp [List.getElem?_eq_getElem hts, writeAt, hlt]
    · intro i
      rw [List.getElem?_set, hb i]
      by_cases hi : off + t = i
      · subst hi
        rw [if_pos rfl, if_pos hlt, if_pos ⟨by omega, by omega⟩]
        simp [List.getElem?_eq_getElem hts]
      · rw [if_neg hi]
        by_cases h2 : off ≤ i ∧ i < off + t
        · rw [if_pos h2, if_pos ⟨h2.1, by omega⟩]
        · rw [if_neg h2, if_neg (by omega)]

/-- What rank 0 holds after the gather. -/
theorem gatherAtRoot_spec (payload : Nat → Nat → Nat → Int) (data : List Int) (size : Nat) :
    ∃ g, gatherAtRoot payload data size = some g ∧ g.length = data.length ∧
      ∀ i, i < data.length →
        g[i]? = some (gatheredValue payload (data.length / size) size i) := by
  unfold gatherAtRoot MPI_Gather
  obtain ⟨g, hg, hlen, hP⟩ := foldlM_range_inv
    (fun buf w => do
      let s ← (fillPartition payload data w size).map
        (fun d => d.drop (w * (data.length / size)))
      copyBlock s (data.length / size) (w * (data.length / size)) buf)
    (fun w buf => buf.length = data.length ∧
      ∀ i, i < data.length → buf[i]? = some (gatheredValue payload (data.length / size) w i))
    size (List.replicate data.length 0)
    ⟨by simp, fun i hi => by simp [gatheredValue, List.getElem?_replicate, hi]⟩
    (by
      rintro w buf hw ⟨hlen, hb⟩
      obtain ⟨d, hd, hdl, hdv⟩ := fillPartition_spec payload data w size hw
      have hblock : w * (data.length / size) + data.length / size ≤ data.length := by
        have := mul_chunk_le_of_le data.length size (w + 1) hw
        rwa [Nat.succ_mul] at this
      obtain ⟨buf', hbuf', hlen', hv'⟩ := copyBlock_spec
        (d.drop (w * (data.length / size))) (data.length / size)
        (w * (data.length / size)) buf (by simp [hdl]; omega) (by omega)
      refine ⟨buf', by simp [hd, hbuf'], by rw [hlen', hlen], fun i hi => ?_⟩
      rw [hv' i]
      by_cases hin : w * (data.length / size) ≤ i ∧
          i < w * (data.length / size) + data.length / size
      · rw [if_pos hin, List.getElem?_drop, Nat.add_sub_cancel' hin.1, hdv i,
          if_pos (inPartition_of_block data.length size w i hw hin.1 hin.2)]
        have hpos : 0 < data.length / size := by omega
        have hdiv : i / (data.length / size) = w := by
          apply Nat.div_eq_of_lt_le
          · exact hin.1
          · rw [Nat.succ_mul]; exact hin.2
        have hlt : i < (w + 1) * (data.length / size) := by rw [Nat.succ_mul]; exact hin.2
        simp only [gatheredValue, if_pos hlt, hdiv]
      · rw [if_neg hin, hb i hi]
        congr 1
        unfold gatheredValue
        by_cases h1 : i < w * (data.length / size)
        · have h2 : i < (w + 1) * (data.length / size) := by
            rw [Nat.succ_mul]; exact Nat.lt_add_right _ h1
          rw [if_pos h1, if_pos h2]
        · have h2 : ¬ i < (w + 1) * (data.length / size) := by
            rw [Nat.succ_mul]; exact fun h => hin ⟨Nat.le_of_not_lt h1, h⟩
          rw [if_neg h1, if_neg h2])
  exact ⟨g, hg, hlen, hP⟩

/-- When `size` divides the length, the gather of a fill that depends on the index
only returns the whole dataset in index order. -/
theorem gatherAtRoot_pure_of_dvd (f : Nat → Int) (data : List Int) (size : Nat)
    (hdvd : size ∣ data.length) :
    gatherAtRoot (purePayload f) data size = some ((List.range data.length).map f) := by
  obtain ⟨g, hg, hlen, hv⟩ := gatherAtRoot_spec (purePayload f) data size
  rw [hg]
  congr 1
  apply List.ext_getElem?
  intro i
  by_cases hi : i < data.length
  · rw [hv i hi, List.getElem?_map, List.getElem?_range hi]
    have hlt : i < size * (data.length / size) := by rw [Nat.mul_div_cancel' hdvd]; exact hi
    simp [gatheredValue, purePayload, hlt]
  · rw [List.getElem?_eq_none (by omega), List.getElem?_eq_none (by simp; omega)]

/-! ## The matrix kernel -/

theorem HasDims.row {rows cols : Nat} {m : Matrix} (h : HasDims rows cols m) {i : Nat}
    (hi : i < rows) : m[i]? = some (m.getD i []) := by
  have hlt : i < m.length := by rw [h.1]; exact hi
  simp [List.getElem?_eq_getElem hlt]

theorem HasDims.cell {rows cols : Nat} {m : Matrix} (h : HasDims rows cols m) {i j : Nat}
    (hi : i < rows) (hj : j < cols) : (m.getD i [])[j]? = some (m.entry i j) := by
  have hlt : j < (m.getD i []).length := by rw [h.2 i hi]; exact hj
  unfold Matrix.entry
  rw [List.getD_eq_getElem?_getD (m.getD i []), List.getElem?_eq_getElem hlt]
  rfl

/-- Two matrices of the same dimensions with the same entries are equal. -/
theorem HasDims.ext {rows cols : Nat} {m1 m2 : Matrix} (h1 : HasDims rows cols m1)
    (h2 : HasDims rows cols m2)
    (h : ∀ i j, i < rows → j < cols → m1.entry i j = m2.entry i j) : m1 = m2 := by
  apply List.ext_getElem?
  intro i
  by_cases hi : i < rows
  · rw [h1.row hi, h2.row hi]
    congr 1
    apply List.ext_getElem?
    intro j
    by_cases hj : j < cols
    · rw [h1.cell hi hj, h2.cell hi hj, h i j hi hj]
    · rw [List.getElem?_eq_none (by rw [h1.2 i hi]; omega),
        List.getElem?_eq_none (by rw [h2.2 i hi]; omega)]
  · rw [List.getElem?_eq_none (by rw [h1.1]; omega), List.getElem?_eq_none (by rw [h2.1]; omega)]

/-- Storing `v` in cell `(i, j)` keeps the dimensions and changes that entry only. -/
theorem set_cell_spec {rows cols : Nat} {r : Matrix} (h : HasDims rows cols r) {i j : Nat}
    (hi : i < rows) (hj : j < cols) (v : Int) :
    HasDims rows cols (r.set i ((r.getD i []).set j v)) ∧
    ∀ i' j', Matrix.entry (r.set i ((r.getD i []).set j v)) i' j'
      = if i' = i ∧ j' = j then v else r.entry i' j' := by
  have hil : i < r.length := by rw [h.1]; exact hi
  have hjl : j < (r.getD i []).length := by rw [h.2 i hi]; exact hj
  have hrow : ∀ i', (r.set i ((r.getD i []).set j v)).getD i' []
      = if i' = i then (r.getD i []).set j v else r.getD i' [] := by
    intro i'
    rw [List.getD_eq_getElem?_getD, List.getElem?_set]
    by_cases hii : i = i'
    · subst hii; simp [hil]
    · have hii' : ¬ i' = i := fun e => hii e.symm
      simp [hii, hii']
  refine ⟨⟨by simp [h.1], ?_⟩, ?_⟩
  · intro i' hi'
    rw [hrow i']
    by_cases hii : i' = i
    · rw [if_pos hii, List.length_set]; exact h.2 i hi
    · rw [if_neg hii]; exact h.2 i' hi'
  · intro i' j'
    unfold Matrix.entry
    rw [hrow i']
    by_cases hii : i' = i
    · subst hii
      rw [if_pos rfl, List.getD_eq_getElem?_getD, List.getElem?_set]
      by_cases hjj : j = j'
      · subst hjj
        rw [if_pos rfl, if_pos hjl, if_pos ⟨rfl, rfl⟩]
        rfl
      · have hjj' : ¬ (i' = i' ∧ j' = j) := fun e => hjj e.2.symm
        rw [if_neg hjj, if_neg hjj']
        simp
    · have hc : ¬ (i' = i ∧ j' = j) := fun e => hii e.1
      rw [if_neg hii, if_neg hc]

theorem wrapInt_of_inInt {x : Int} (h : InInt x) : wrapInt x = x := by
  unfold InInt at h
  unfold wrapInt
  omega

/-- One execution of the loop body: with all three accesses in range and neither the
product nor the sum overflowing, the cell `(i, j)` grows by `a[i][k] * b[k][j]`. -/
theorem cellUpdate_spec {m p q c : Nat} {a b r : Matrix} (ha : HasDims m p a)
    (hb : HasDims q c b) (hr : HasDims m c r) {i j k : Nat} (hi : i < m) (hj : j < c)
    (hkp : k < p) (hkq : k < q) (hprod : InInt (a.entry i k * b.entry k j))
    (hsum : InInt (r.entry i j + a.entry i k * b.entry k j)) :
    ∃ r', cellUpdate a b i j k r = some r' ∧ HasDims m c r' ∧
      ∀ i' j', r'.entry i' j'
        = r.entry i' j' + if i' = i ∧ j' = j then a.entry i k * b.entry k j else 0 := by
  have hs := set_cell_spec hr hi hj (r.entry i j + a.entry i k * b.entry k j)
  refine ⟨_, ?_, hs.1, ?_⟩
  · unfold cellUpdate
    simp only [hr.row hi, hr.cell hi hj, ha.row hi, ha.cell hi hkp, hb.row hkq, hb.cell hkq hj,
      Option.bind_eq_bind, Option.some_bind, Option.pure_def, wrapInt_of_inInt hprod,
      wrapInt_of_inInt hsum]
  · intro i' j'
    rw [hs.2 i' j']
    by_cases hc : i' = i ∧ j' = j
    · rw [if_pos hc, if_pos hc, hc.1, hc.2]
    · rw [if_neg hc, if_neg hc, add_zero]

/-- The loop over `k`: the cell `(i, j)` grows by the sum over `k < p`. -/
theorem kLoop_spec {m p q c : Nat} {a b r : Matrix} (ha : HasDims m p a)
    (hb : HasDims q c b) (hpq : p ≤ q) (hr : HasDims m c r) {i j : Nat} (hi : i < m)
    (hj : j < c) (hprod : ∀ k, k < p → InInt (a.entry i k * b.entry k j))
    (hsum : ∀ K, K < p + 1 →
      InInt (r.entry i j + ∑ k in Finset.range K, a.entry i k * b.entry k j)) :
    ∃ r', kLoop a b i j r = some r' ∧ HasDims m c r' ∧
      ∀ i' j', r'.entry i' j' = r.entry i' j' +
        if i' = i ∧ j' = j then ∑ k in Finset.range p, a.entry i k * b.entry k j else 0 := by
  have h0 : 0 < m := by omega
  unfold kLoop
  simp only [ha.row h0, Option.bind_eq_bind, Option.some_bind, ha.2 0 h0]
  apply foldlM_range_inv (fun r k => cellUpdate a b i j k r)
    (fun K r' => HasDims m c r' ∧ ∀ i' j', r'.entry i' j' = r.entry i' j' +
        if i' = i ∧ j' = j then ∑ k in Finset.range K, a.entry i k * b.entry k j else 0)
  · exact ⟨hr, fun i' j' => by simp⟩
  · rintro k s hk ⟨hs, he⟩
    have hcur : s.entry i j = r.entry i j + ∑ k in Finset.range k, a.entry i k * b.entry k j := by
      rw [he i j, if_pos ⟨rfl, rfl⟩]
    have hnext : InInt (s.entry i j + a.entry i k * b.entry k j) := by
      have := hsum (k + 1) (by omega)
      rwa [Finset.sum_range_succ, ← add_assoc, ← hcur] at this
    obtain ⟨s', hs', hd', he'⟩ :=
      cellUpdate_spec ha hb hs hi hj hk (by omega) (hprod k hk) hnext
    refine ⟨s', hs', hd', fun i' j' => ?_⟩
    rw [he' i' j', he i' j']
    by_cases hc : i' = i ∧ j' = j
    · simp only [if_pos hc, Finset.sum_range_succ]; ring
    · simp only [if_neg hc, add_zero]

/-- The loop over `j`: every cell of row `i` grows by its sum over `k < p`. -/
theorem jLoop_spec {m p q c : Nat} {a b r : Matrix} (ha : HasDims m p a)
    (hb : HasDims q c b) (hpq : p ≤ q) (hr : HasDims m c r) {i : Nat}
    (hi : i < m) (hprod : ∀ j, j < c → ∀ k, k < p → InInt (a.entry i k * b.entry k j))
    (hsum : ∀ j, j < c → ∀ K, K < p + 1 →
      InInt (r.entry i j + ∑ k in Finset.range K, a.entry i k * b.entry k j)) :
    ∃ r', jLoop a b i c r = some r' ∧ HasDims m c r' ∧
      ∀ i' j', r'.entry i' j' = r.entry i' j' +
        if i' = i ∧ j' < c then ∑ k in Finset.range p, a.entry i k * b.entry k j' else 0 := by
  unfold jLoop
  obtain ⟨r', hr', hd', he'⟩ := foldlM_range_inv (fun r j => kLoop a b i j r)
    (fun J r' => HasDims m c r' ∧ ∀ i' j', r'.entry i' j' = r.entry i' j' +
        if i' = i ∧ j' < J then ∑ k in Finset.range p, a.entry i k * b.entry k j' else 0)
    c r ⟨hr, fun i' j' => by simp⟩
    (by
      rintro j s hj ⟨hs, he⟩
      have hcur : s.entry i j = r.entry i j := by
        rw [he i j, if_neg (by omega), add_zero]
      obtain ⟨s', hs', hd', he'⟩ := kLoop_spec ha hb hpq hs hi hj (hprod j hj)
        (fun K hK => by rw [hcur]; exact hsum j hj K hK)
      refine ⟨s', hs', hd', fun i' j' => ?_⟩
      rw [he' i' j', he i' j']
      by_cases h1 : i' = i
      · subst h1
        by_cases h2 : j' = j
        · subst h2; simp
        · by_cases h3 : j' < j
          · have h4 : j' < j + 1 := by omega
            simp [h2, h3, h4]
          · have h4 : ¬ j' < j + 1 := by omega
            simp [h2, h3, h4]
      · simp [h1])
  exact ⟨r', hr', hd', he'⟩

/-- The whole kernel.  For `a` of `m` rows and `p` columns, `b` of `q >= p`, `q >= 1`
rows and `c` columns and `result` of `m` rows and `c` columns, with no `int` overflow,
the call runs to the end and every cell of `result` has grown by the sum over `k < p`
of `a[i][k] * b[k][j]`. -/
theorem matrixMultiplication_spec {m p q c : Nat} {a b r : Matrix} (ha : HasDims m p a)
    (hb : HasDims q c b) (hpq : p ≤ q) (hq : 0 < q) (hr : HasDims m c r)
    (hno : NoOverflow m p c a b r) :
    ∃ r', matrixMultiplication a b r = some r' ∧ HasDims m c r' ∧
      ∀ i j, i < m → j < c →
        r'.entry i j = r.entry i j + ∑ k in Finset.range p, a.entry i k * b.entry k j := by
  unfold matrixMultiplication
  simp only [hb.row hq, Option.bind_eq_bind, Option.some_bind, hb.2 0 hq]
  rw [ha.1]
  obtain ⟨r', hr', hd', he'⟩ := foldlM_range_inv (fun r i => jLoop a b i c r)
    (fun I r' => HasDims m c r' ∧ ∀ i' j', r'.entry i' j' = r.entry i' j' +
        if i' < I ∧ j' < c then ∑ k in Finset.range p, a.entry i' k * b.entry k j' else 0)
    m r ⟨hr, fun i' j' => by simp⟩
    (by
      rintro i s hi ⟨hs, he⟩
      have hcur : ∀ j, s.entry i j = r.entry i j := by
        intro j
        rw [he i j, if_neg (by omega), add_zero]
      obtain ⟨s', hs', hd', he'⟩ := jLoop_spec ha hb hpq hs hi (hno.1 i hi)
        (fun j hj K hK => by rw [hcur j]; exact hno.2 i hi j hj K hK)
      refine ⟨s', hs', hd', fun i' j' => ?_⟩
      rw [he' i' j', he i' j']
      by_cases h1 : i' = i
      · subst h1; simp
      · by_cases h3 : i' < i
        · have h4 : i' < i + 1 := by omega
          simp [h1, h3, h4]
        · have h4 : ¬ i' < i + 1 := by omega
          simp [h1, h3, h4])
  refine ⟨r', hr', hd', fun i j hi hj => ?_⟩
  rw [he' i j, if_pos ⟨hi, hj⟩]

theorem fillMatrix_dims (rows cols : Nat) (v : Int) :
    HasDims rows cols (fillMatrix rows cols v) := by
  refine ⟨by simp [fillMatrix], fun i hi => ?_⟩
  simp [fillMatrix, List.getElem?_replicate, hi]

theorem fillMatrix_entry (rows cols : Nat) (v : Int) {i j : Nat} (hi : i < rows)
    (hj : j < cols) : (fillMatrix rows cols v).entry i j = v := by
  simp [Matrix.entry, fillMatrix, List.getElem?_replicate, hi, hj]

theorem constMatrix_dims (n : Nat) (v : Int) : HasDims n n (constMatrix n v) :=
  fillMatrix_dims n n v

theorem constMatrix_entry (n : Nat) (v : Int) {i j : Nat} (hi : i < n) (hj : j < n) :
    (constMatrix n v).entry i j = v :=
  fillMatrix_entry n n v hi hj


theorem identityMatrix_dims (n : Nat) : HasDims n n (identityMatrix n) := by
  refine ⟨by simp [identityMatrix], fun i hi => ?_⟩
  simp [identityMatrix, List.getElem?_range hi]

theorem identityMatrix_entry (n : Nat) {i j : Nat} (hi : i < n) (hj : j < n) :
    (identityMatrix n).entry i j = if i = j then 1 else 0 := by
  simp [Matrix.entry, identityMatrix, List.getElem?_range hi, List.getElem?_range hj]

/-- With a representable `n`, the all-ones product from the zero result does not
overflow: the cell values are `0, 1, ..., n`. -/
theorem ones_noOverflow (n : Nat) (hmax : n ≤ INT_MAX) :
    NoOverflow n n n (constMatrix n 1) (constMatrix n 1) (constMatrix n 0) := by
  unfold INT_MAX at hmax
  refine ⟨fun i hi j hj k hk => ?_, fun i hi j hj K hK => ?_⟩
  · rw [constMatrix_entry n 1 hi hk, constMatrix_entry n 1 hk hj]
    unfold InInt; omega
  · rw [constMatrix_entry n 0 hi hj, Finset.sum_congr rfl (fun k hk => by
      rw [constMatrix_entry n 1 hi (by have := Finset.mem_range.1 hk; omega),
        constMatrix_entry n 1 (by have := Finset.mem_range.1 hk; omega) hj])]
    simp only [mul_one, Finset.sum_const, Finset.card_range, nsmul_eq_mul, zero_add]
    unfold InInt; omega

/-- The product of two all-ones matrices from a zero result is the constant `n`. -/
theorem ones_product (n : Nat) (hn : 0 < n) (hmax : n ≤ INT_MAX) :
    matrixMultiplication (constMatrix n 1) (constMatrix n 1) (constMatrix n 0)
      = some (constMatrix n (n : Int)) := by
  obtain ⟨C, hC, hd, he⟩ := matrixMultiplication_spec (constMatrix_dims n 1)
    (constMatrix_dims n 1) (le_refl n) hn (constMatrix_dims n 0) (ones_noOverflow n hmax)
  rw [hC]
  congr 1
  apply HasDims.ext hd (constMatrix_dims n n)
  intro i j hi hj
  rw [he i j hi hj, constMatrix_entry n 0 hi hj, constMatrix_entry n n hi hj, zero_add]
  rw [Finset.sum_congr rfl (fun k hk => by
    rw [constMatrix_entry n 1 hi (Finset.mem_range.1 hk),
      constMatrix_entry n 1 (Finset.mem_range.1 hk) hj])]
  simp

/-- A partial sum of row `i` of `A` against column `j` of the identity. -/
theorem identity_partial_sum (n : Nat) (A : Matrix) (i j K : Nat) (hj : j < n) (hK : K ≤ n) :
    ∑ k in Finset.range K, A.entry i k * (identityMatrix n).entry k j
      = if j < K then A.entry i j else 0 := by
  rw [Finset.sum_congr rfl (fun k hk => by
    rw [identityMatrix_entry n (lt_of_lt_of_le (Finset.mem_range.1 hk) hK) hj])]
  simp [Finset.sum_ite_eq]

/-- Multiplying a matrix of `int` entries by the identity from the zero result does not
overflow: every cell value is `0` or an entry of the matrix. -/
theorem identity_noOverflow (n : Nat) (A : Matrix) (hint : IntEntries n n A) :
    NoOverflow n n n A (identityMatrix n) (constMatrix n 0) := by
  have hz : InInt 0 := by unfold InInt; omega
  refine ⟨fun i hi j hj k hk => ?_, fun i hi j hj K hK => ?_⟩
  · rw [identityMatrix_entry n hk hj]
    by_cases h : k = j
    · rw [if_pos h, mul_one]; exact hint i hi k hk
    · rw [if_neg h, mul_zero]; exact hz
  · rw [constMatrix_entry n 0 hi hj, zero_add, identity_partial_sum n A i j K hj (by omega)]
    by_cases h : j < K
    · rw [if_pos h]; exact hint i hi j hj
    · rw [if_neg h]; exact hz

/-- For a dataset whose length fits an `int`, every value of the partition computation
of a valid rank fits an `int` as well: `chunk_size`, `start`, `start + chunk_size` and
`end` are at most the length. -/
theorem partition_no_wrap (n size rank : Nat) (hn : n ≤ INT_MAX) (hr : rank < size) :
    n / size ≤ INT_MAX ∧ rank * (n / size) ≤ INT_MAX ∧
    rank * (n / size) + n / size ≤ INT_MAX ∧ (partition n size rank).2 ≤ INT_MAX := by
  have h1 : rank * (n / size) + n / size ≤ n := by
    have := mul_chunk_le_of_le n size (rank + 1) hr
    rwa [Nat.succ_mul] at this
  have h2 := (partition_le n size rank hr).2
  exact ⟨le_trans (Nat.div_le_self _ _) hn, le_trans (le_trans (Nat.le_add_right _ _) h1) hn,
    le_trans h1 hn, le_trans h2 hn⟩

/-- The kernel in `int` arithmetic at two overflowing inputs and at `n = 0`:
`100000 * 100000` is stored as `1410065408`, `2147483647 + 1 * 1` as `-2147483648`, and
with an empty `matrix_b` the bound `matrix_b[0].size()` cannot be read. -/
theorem matrixMultiplication_int_examples :
    matrixMultiplication [[100000]] [[100000]] [[0]] = some [[1410065408]] ∧
    matrixMultiplication [[1]] [[1]] [[2147483647]] = some [[-2147483648]] ∧
    matrixMultiplication [] [] [] = none := by
  decide

/-! ## Claims C1 - C4: the partition computation -/

/-- C1 (partition coverage): for `1 <= W <= N`, `N` within `int`, the ranges `[start, end)` of the workers
`0 .. W-1` are pairwise disjoint, every index `i < N` lies in exactly one of them, no
range reaches beyond `N`, and the sizes `end - start` add up to `N`. -/
theorem C1_partition_coverage (N W : Nat) (hN : N ≤ INT_MAX) (hW : 1 ≤ W) (hWN : W ≤ N) :
    (∀ i, i < N → ∃! w, w < W ∧ inPartition N W w i) ∧
    (∀ w i, w < W → inPartition N W w i → i < N) ∧
    (∀ w1 w2 i, w1 < W → w2 < W → inPartition N W w1 i → inPartition N W w2 i → w1 = w2) ∧
    ∑ w in Finset.range W, ((partition N W w).2 - (partition N W w).1) = N := by
  have _ := hWN
  have _ := hN
  exact ⟨fun i hi => partition_cover N W hW i hi,
    fun w i hw hi => lt_of_lt_of_le hi.2 (partition_le N W w hw).2,
    fun w1 w2 i h1 h2 hi1 hi2 => partition_disjoint N W hW w1 w2 i h1 h2 hi1 hi2,
    partition_sum N W hW⟩

/-- Witness for C1 at `N = 10`, `W = 3`. -/
theorem C1_partition_coverage_witness :
    (10 ≤ INT_MAX ∧ 1 ≤ 3 ∧ 3 ≤ 10) ∧
    ((∀ i, i < 10 → ∃! w, w < 3 ∧ inPartition 10 3 w i) ∧
    (∀ w i, w < 3 → inPartition 10 3 w i → i < 10) ∧
    (∀ w1 w2 i, w1 < 3 → w2 < 3 → inPartition 10 3 w1 i → inPartition 10 3 w2 i → w1 = w2) ∧
    ∑ w in Finset.range 3, ((partition 10 3 w).2 - (partition 10 3 w).1) = 10) :=
  ⟨by decide, C1_partition_coverage 10 3 (by decide) (by decide) (by decide)⟩

/-- C2 as stated fails: with `N = 1` and `W = 2` the worker `w = 1` satisfies
`W > N` and `N <= w < W` and receives the range `[0, 1)`, which is not zero-length. -/
theorem C2_counterexample :
    ((1 : Nat) < 2 ∧ (1 : Nat) ≤ 1 ∧ (1 : Nat) < 2) ∧
    partition 1 2 1 = (0, 1) ∧ (partition 1 2 1).1 ≠ (partition 1 2 1).2 := by
  decide

/-- C2 (amended, partition degeneracy): for `W > N` every worker other than the last
receives the zero-length range `[0, 0)`, the last worker `W-1` receives `[0, N)`, and
every index `i < N` still lies in exactly one worker's range. -/
theorem C2_partition_degeneracy (N W : Nat) (hWN : N < W) :
    (∀ w, w < W - 1 → partition N W w = (0, 0)) ∧
    partition N W (W - 1) = (0, N) ∧
    (∀ i, i < N → ∃! w, w < W ∧ inPartition N W w i) ∧
    (∀ w i, w < W → inPartition N W w i → i < N) := by
  have hc : N / W = 0 := Nat.div_eq_of_lt hWN
  refine ⟨?_, ?_, fun i hi => partition_cover N W (by omega) i hi,
    fun w i hw hi => lt_of_lt_of_le hi.2 (partition_le N W w hw).2⟩
  · intro w hw
    have hne : w ≠ W - 1 := by omega
    simp [partition, hc, hne]
  · simp [partition, hc]

/-- Witness for the amended C2 at `N = 1`, `W = 2`. -/
theorem C2_partition_degeneracy_witness :
    1 < 2 ∧
    ((∀ w, w < 2 - 1 → partition 1 2 w = (0, 0)) ∧
    partition 1 2 (2 - 1) = (0, 1) ∧
    (∀ i, i < 1 → ∃! w, w < 2 ∧ inPartition 1 2 w i) ∧
    (∀ w i, w < 2 → inPartition 1 2 w i → i < 1)) :=
  ⟨by decide, C2_partition_degeneracy 1 2 (by decide)⟩

/-- C3 (partition bounds): for `N` within `int`, `W >= 1` and `w < W` the range satisfies
`0 <= start <= end <= N`, every index the fill loop visits is below `N`, and the fill
loop of `congestionMonitoring` on a dataset of length `N` runs to its end without an
out-of-bounds access, leaving a dataset of length `N`. -/
theorem C3_partition_bounds (N W w : Nat) (hN : N ≤ INT_MAX) (hW : 1 ≤ W) (hw : w < W) :
    (0 ≤ (partition N W w).1 ∧ (partition N W w).1 ≤ (partition N W w).2 ∧
      (partition N W w).2 ≤ N) ∧
    (∀ i, inPartition N W w i → i < N) ∧
    (∀ (gen : Nat → Nat → Nat) (traffic_density : List Int), traffic_density.length = N →
      ∃ d, congestionMonitoring_fill gen traffic_density w W = some d ∧ d.length = N) := by
  have _ := hW
  have _ := hN
  have hb := partition_le N W w hw
  refine ⟨⟨Nat.zero_le _, hb.1, hb.2⟩, fun i hi => lt_of_lt_of_le hi.2 hb.2, ?_⟩
  intro gen traffic_density hlen
  obtain ⟨d, hd, hdl, _⟩ := fillPartition_spec (randPayload gen 100) traffic_density w W hw
  exact ⟨d, hd, by rw [hdl, hlen]⟩

/-- Witness for C3 at `N = 2`, `W = 5`, `w = 4` (more workers than elements). -/
theorem C3_partition_bounds_witness :
    (2 ≤ INT_MAX ∧ 1 ≤ 5 ∧ 4 < 5) ∧
    ((0 ≤ (partition 2 5 4).1 ∧ (partition 2 5 4).1 ≤ (partition 2 5 4).2 ∧
      (partition 2 5 4).2 ≤ 2) ∧
    (∀ i, inPartition 2 5 4 i → i < 2) ∧
    (∀ (gen : Nat → Nat → Nat) (traffic_density : List Int), traffic_density.length = 2 →
      ∃ d, congestionMonitoring_fill gen traffic_density 4 5 = some d ∧ d.length = 2)) :=
  ⟨by decide, C3_partition_bounds 2 5 4 (by decide) (by decide) (by decide)⟩

/-- C4 (partition sizes): for `N` within `int` and `W >= 1` every worker `w < W-1` has
`end - start = N / W` and the last worker has `end - start = N - (W-1)*(N/W)`, the
differences taken in the integers. -/
theorem C4_partition_sizes (N W : Nat) (hN : N ≤ INT_MAX) (hW : 1 ≤ W) :
    (∀ w, w < W - 1 →
      ((partition N W w).2 : Int) - ((partition N W w).1 : Int) = ((N / W : Nat) : Int)) ∧
    ((partition N W (W - 1)).2 : Int) - ((partition N W (W - 1)).1 : Int)
      = (N : Int) - (((W - 1) * (N / W) : Nat) : Int) := by
  have _ := hW
  have _ := hN
  constructor
  · intro w hw
    rw [partition_snd_inner N W w (by omega), partition_fst]
    push_cast
    ring
  · rw [partition_snd_last, partition_fst]

/-- Witness for C4 at `N = 10`, `W = 3`. -/
theorem C4_partition_sizes_witness :
    (10 ≤ INT_MAX ∧ 1 ≤ 3) ∧
    ((∀ w, w < 3 - 1 →
      ((partition 10 3 w).2 : Int) - ((partition 10 3 w).1 : Int) = ((10 / 3 : Nat) : Int)) ∧
    ((partition 10 3 (3 - 1)).2 : Int) - ((partition 10 3 (3 - 1)).1 : Int)
      = (10 : Int) - (((3 - 1) * (10 / 3) : Nat) : Int)) :=
  ⟨by decide, C4_partition_sizes 10 3 (by decide) (by decide)⟩

/-! ## Claims C5, C7, C8, C10: the matrix kernel -/

/-- C5 (matrix multiplication correctness): for `n >= 1` within `int` and `n`-by-`n`
matrices `A` and `B` on which no `int` product or partial sum overflows,
`matrixMultiplication` called with the zero `n`-by-`n` result runs to the end and leaves
an `n`-by-`n` matrix with `result[i][j] = sum over k < n of A[i][k] * B[k][j]`, the exact
integer sum. -/
theorem C5_matrixMultiplication_correct (n : Nat) (A B : Matrix) (hn : 0 < n)
    (hmax : n ≤ INT_MAX) (hA : HasDims n n A) (hB : HasDims n n B)
    (hno : NoOverflow n n n A B (constMatrix n 0)) :
    ∃ C, matrixMultiplication A B (constMatrix n 0) = some C ∧ HasDims n n C ∧
      ∀ i j, i < n → j < n →
        C.entry i j = ∑ k in Finset.range n, A.entry i k * B.entry k j := by
  have _ := hmax
  obtain ⟨C, hC, hd, he⟩ := matrixMultiplication_spec hA hB (le_refl n) hn
    (constMatrix_dims n 0) hno
  refine ⟨C, hC, hd, fun i j hi hj => ?_⟩
  rw [he i j hi hj, constMatrix_entry n 0 hi hj, zero_add]

/-- Witness for C5 on two 2-by-2 matrices. -/
theorem C5_matrixMultiplication_correct_witness :
    (0 < 2 ∧ 2 ≤ INT_MAX ∧ HasDims 2 2 [[1, 2], [3, 4]] ∧ HasDims 2 2 [[5, 6], [7, 8]] ∧
      NoOverflow 2 2 2 [[1, 2], [3, 4]] [[5, 6], [7, 8]] (constMatrix 2 0)) ∧
    ∃ C, matrixMultiplication [[1, 2], [3, 4]] [[5, 6], [7, 8]] (constMatrix 2 0) = some C ∧
      HasDims 2 2 C ∧
      ∀ i j, i < 2 → j < 2 →
        C.entry i j
          = ∑ k in Finset.range 2,
              Matrix.entry [[1, 2], [3, 4]] i k * Matrix.entry [[5, 6], [7, 8]] k j :=
  ⟨⟨by decide, by decide, by decide, by decide, by decide⟩,
    C5_matrixMultiplication_correct 2 [[1, 2], [3, 4]] [[5, 6], [7, 8]] (by decide) (by decide)
      (by decide) (by decide) (by decide)⟩

/-- C7 (identity law): for `n >= 1` within `int` and an `n`-by-`n` matrix `A` of `int`
entries, `matrixMultiplication(A, I_n, result)` with the zero result yields
`result == A`. -/
theorem C7_identity_law (n : Nat) (A : Matrix) (hn : 0 < n) (hmax : n ≤ INT_MAX)
    (hA : HasDims n n A) (hint : IntEntries n n A) :
    matrixMultiplication A (identityMatrix n) (constMatrix n 0) = some A := by
  have _ := hmax
  obtain ⟨C, hC, hd, he⟩ := matrixMultiplication_spec hA (identityMatrix_dims n) (le_refl n)
    hn (constMatrix_dims n 0) (identity_noOverflow n A hint)
  rw [hC]
  congr 1
  apply HasDims.ext hd hA
  intro i j hi hj
  rw [he i j hi hj, constMatrix_entry n 0 hi hj, zero_add,
    identity_partial_sum n A i j n hj (le_refl n), if_pos hj]

/-- Witness for C7 on a 2-by-2 matrix. -/
theorem C7_identity_law_witness :
    (0 < 2 ∧ 2 ≤ INT_MAX ∧ HasDims 2 2 [[1, 2], [3, 4]] ∧ IntEntries 2 2 [[1, 2], [3, 4]]) ∧
    matrixMultiplication [[1, 2], [3, 4]] (identityMatrix 2) (constMatrix 2 0)
      = some [[1, 2], [3, 4]] :=
  ⟨⟨by decide, by decide, by decide, by decide⟩,
    C7_identity_law 2 [[1, 2], [3, 4]] (by decide) (by decide) (by decide) (by decide)⟩

/-- C8 (all-ones product): for `n >= 1` within `int`, the kernel on `A = B =` all-ones
`n`-by-`n` with the zero result yields an `n`-by-`n` matrix with every cell equal to `n`;
for the inputs built in `main` (`MATRIX_SIZE = 200`) every cell of `result` is `200`. -/
theorem C8_all_ones_product (n : Nat) (hn : 0 < n) (hmax : n ≤ INT_MAX) :
    (∃ C,
      matrixMultiplication (constMatrix n 1) (constMatrix n 1) (constMatrix n 0) = some C ∧
      HasDims n n C ∧ ∀ i j, i < n → j < n → C.entry i j = (n : Int)) ∧
    (∃ C, matrixMultiplication (constMatrix MATRIX_SIZE 1) (constMatrix MATRIX_SIZE 1)
        (constMatrix MATRIX_SIZE 0) = some C ∧
      HasDims 200 200 C ∧ ∀ i j, i < 200 → j < 200 → C.entry i j = 200) := by
  have key : ∀ n : Nat, 0 < n → n ≤ INT_MAX → ∃ C,
      matrixMultiplication (constMatrix n 1) (constMatrix n 1) (constMatrix n 0) = some C ∧
      HasDims n n C ∧ ∀ i j, i < n → j < n → C.entry i j = (n : Int) := fun n hn hmax =>
    ⟨constMatrix n n, ones_product n hn hmax, constMatrix_dims n n,
      fun i j hi hj => constMatrix_entry n n hi hj⟩
  exact ⟨key n hn hmax, key 200 (by decide) (by decide)⟩

/-- Witness for C8 at `n = 3`. -/
theorem C8_all_ones_product_witness :
    (0 < 3 ∧ 3 ≤ INT_MAX) ∧
    ((∃ C,
      matrixMultiplication (constMatrix 3 1) (constMatrix 3 1) (constMatrix 3 0) = some C ∧
      HasDims 3 3 C ∧ ∀ i j, i < 3 → j < 3 → C.entry i j = ((3 : Nat) : Int)) ∧
    (∃ C, matrixMultiplication (constMatrix MATRIX_SIZE 1) (constMatrix MATRIX_SIZE 1)
        (constMatrix MATRIX_SIZE 0) = some C ∧
      HasDims 200 200 C ∧ ∀ i j, i < 200 → j < 200 → C.entry i j = 200)) :=
  ⟨by decide, C8_all_ones_product 3 (by decide) (by decide)⟩

/-- C10 as stated fails: `A = [[1]]` has one column, `B = [[1],[1]]` has two rows, and the
kernel returns the result `[[1]]` with no error. -/
theorem C10_counterexample :
    (Matrix.entry [[1]] 0 0 = 1 ∧ HasDims 1 1 [[1]] ∧ HasDims 2 1 [[1], [1]] ∧ (1 : Nat) ≠ 2) ∧
    matrixMultiplication [[1]] [[1], [1]] [[0]] = some [[1]] := by
  decide

/-- C10 (amended): the kernel has no conformability check.  For `A` of `m` rows and `p`
columns and `B` of `q` rows and `c` columns with `p < q`, all loop bounds within `int` and
no `int` product or partial sum overflowing, called with the zero `m`-by-`c` result, it
runs to the end without an error and returns the `m`-by-`c` matrix with
`result[i][j] = sum over k < p of A[i][k] * B[k][j]`: the rows `p .. q-1` of `B` are
never read. -/
theorem C10_no_conformability_check (m p q c : Nat) (A B : Matrix) (hm : m ≤ INT_MAX)
    (hp : p ≤ INT_MAX) (hc : c ≤ INT_MAX) (hA : HasDims m p A) (hB : HasDims q c B)
    (hpq : p < q) (hno : NoOverflow m p c A B (fillMatrix m c 0)) :
    ∃ C, matrixMultiplication A B (fillMatrix m c 0) = some C ∧ HasDims m c C ∧
      ∀ i j, i < m → j < c →
        C.entry i j = ∑ k in Finset.range p, A.entry i k * B.entry k j := by
  have _ := hm
  have _ := hp
  have _ := hc
  obtain ⟨C, hC, hd, he⟩ := matrixMultiplication_spec hA hB (le_of_lt hpq)
    (by omega) (fillMatrix_dims m c 0) hno
  refine ⟨C, hC, hd, fun i j hi hj => ?_⟩
  rw [he i j hi hj, fillMatrix_entry m c 0 hi hj, zero_add]

/-- Witness for the amended C10 at `A = [[1, 2]]` (1-by-2) and a 3-by-1 `B`. -/
theorem C10_no_conformability_check_witness :
    (1 ≤ INT_MAX ∧ 2 ≤ INT_MAX ∧ 1 ≤ INT_MAX ∧ HasDims 1 2 [[1, 2]] ∧
      HasDims 3 1 [[3], [4], [5]] ∧ 2 < 3 ∧
      NoOverflow 1 2 1 [[1, 2]] [[3], [4], [5]] (fillMatrix 1 1 0)) ∧
    ∃ C, matrixMultiplication [[1, 2]] [[3], [4], [5]] (fillMatrix 1 1 0) = some C ∧
      HasDims 1 1 C ∧
      ∀ i j, i < 1 → j < 1 →
        C.entry i j
          = ∑ k in Finset.range 2,
              Matrix.entry [[1, 2]] i k * Matrix.entry [[3], [4], [5]] k j :=
  ⟨⟨by decide, by decide, by decide, by decide, by decide, by decide, by decide⟩,
    C10_no_conformability_check 1 2 3 1 [[1, 2]] [[3], [4], [5]] (by decide) (by decide)
      (by decide) (by decide) (by decide) (by decide) (by decide)⟩

/-! ## Claims C6 and C9: the gathered dataset -/

/-- C6 at `N = 10`, `W = 3`, `fill_fn(i) = i`: the partitions are `(0,3)`, `(3,6)`, `(6,10)`
and the last worker does fill the indices `6 .. 9`, but `MPI_Gather` takes
`chunk_size = 3` elements from every worker, so `global_data` at rank 0 is
`[0,1,2,3,4,5,6,7,8,0]` and not `[0, .., 9]`.  In `trafficFlowMonitoring` with the
program's `NUM_VEHICLES = 10000` elements on 3 processes, index `9999` of `global_data`
is `0` for every random stream while the last process stored `rand() % 100` there. -/
theorem C6_gather_misses_remainder :
    (partition 10 3 0 = (0, 3) ∧ partition 10 3 1 = (3, 6) ∧ partition 10 3 2 = (6, 10)) ∧
    fillPartition (purePayload (fun i => (i : Int))) (List.replicate 10 0) 2 3
      = some [0, 0, 0, 0, 0, 0, 6, 7, 8, 9] ∧
    gatherAtRoot (purePayload (fun i => (i : Int))) (List.replicate 10 0) 3
      = some [0, 1, 2, 3, 4, 5, 6, 7, 8, 0] ∧
    gatherAtRoot (purePayload (fun i => (i : Int))) (List.replicate 10 0) 3
      ≠ some [0, 1, 2, 3, 4, 5, 6, 7, 8, 9] ∧
    (∀ gen : Nat → Nat → Nat,
      (∃ g, trafficFlowMonitoring gen (List.replicate NUM_VEHICLES 0) 3 = some g ∧
        g.length = 10000 ∧ g[9999]? = some 0) ∧
      (∃ d, trafficFlowMonitoring_fill gen (List.replicate NUM_VEHICLES 0) 2 3 = some d ∧
        d[9999]? = some ((gen 2 3333 % 100 : Nat) : Int))) := by
  have hN : (List.replicate NUM_VEHICLES (0 : Int)).length = 10000 := by
    rw [List.length_replicate]; rfl
  refine ⟨by decide, by decide, by decide, by decide, fun gen => ⟨?_, ?_⟩⟩
  · obtain ⟨g, hg, hlen, hv⟩ :=
      gatherAtRoot_spec (randPayload gen 100) (List.replicate NUM_VEHICLES 0) 3
    rw [hN] at hlen hv
    refine ⟨g, hg, hlen, ?_⟩
    rw [hv 9999 (by decide)]
    rfl
  · obtain ⟨d, hd, _, hv⟩ :=
      fillPartition_spec (randPayload gen 100) (List.replicate NUM_VEHICLES 0) 2 3 (by decide)
    rw [hN] at hv
    refine ⟨d, hd, ?_⟩
    rw [hv 9999, if_pos (by decide)]
    rfl

/-- C9 at `N = 10`, `fill_fn(i) = i`: one worker assembles `[0, .., 9]`, three workers
assemble `[0,1,2,3,4,5,6,7,8,0]`, so the assembled dataset depends on the worker
count.  The same happens in `congestionMonitoring` on a random stream whose values
agree with `fill_fn(i) = i` for both worker counts (`rand()` number `k` after
`srand(seed)` is `3 * seed + k`). -/
theorem C9_worker_count_dependence :
    gatherAtRoot (purePayload (fun i => (i : Int))) (List.replicate 10 0) 1
      = some [0, 1, 2, 3, 4, 5, 6, 7, 8, 9] ∧
    gatherAtRoot (purePayload (fun i => (i : Int))) (List.replicate 10 0) 3
      = some [0, 1, 2, 3, 4, 5, 6, 7, 8, 0] ∧
    gatherAtRoot (purePayload (fun i => (i : Int))) (List.replicate 10 0) 1
      ≠ gatherAtRoot (purePayload (fun i => (i : Int))) (List.replicate 10 0) 3 ∧
    congestionMonitoring (fun seed k => 3 * seed + k) (List.replicate 10 0) 1
      = some [0, 1, 2, 3, 4, 5, 6, 7, 8, 9] ∧
    congestionMonitoring (fun seed k => 3 * seed + k) (List.replicate 10 0) 3
      = some [0, 1, 2, 3, 4, 5, 6, 7, 8, 0] := by
  decide

/-! ## Claim C11: the paired fill of `trafficSimulation` -/

/-- C11 as stated fails: `traffic_flow` of length 1 and `incidents` of length 2 differ in
length, rank 0 of 1 is valid, and the fill of `trafficSimulation` reports nothing: it
returns with `traffic_flow[0]` and `incidents[0]` both written. -/
theorem C11_counterexample :
    (List.length [(0 : Int)] ≠ List.length [(0 : Int), 0] ∧ (0 : Nat) < 1) ∧
    trafficSimulation_fill (fun _ _ => 41) [0] [0, 0] 0 1 = some ([41], [1, 0]) := by
  decide

/-- C11 (amended): `trafficSimulation` has no length check.  For `traffic_flow` of a
length within `int`, `incidents` longer than `traffic_flow` and every valid rank and
size it reports no failure: the fill runs to the
end, both sequences keep their lengths, both are written at exactly the indices of the
partition computed from `traffic_flow.size()`, and every element of either sequence
outside that range is unchanged. -/
theorem C11_no_length_check (gen : Nat → Nat → Nat) (traffic_flow incidents : List Int)
    (rank size : Nat) (hN : traffic_flow.length ≤ INT_MAX) (hr : rank < size)
    (hlen : traffic_flow.length < incidents.length) :
    ∃ tf inc, trafficSimulation_fill gen traffic_flow incidents rank size = some (tf, inc) ∧
      tf.length = traffic_flow.length ∧ inc.length = incidents.length ∧
      (∀ i, inPartition traffic_flow.length size rank i →
        tf[i]? = some ((gen rank (2 * (i - (partition traffic_flow.length size rank).1)) % 100
            : Nat) : Int) ∧
        inc[i]? = some ((gen rank (2 * (i - (partition traffic_flow.length size rank).1) + 1) % 2
            : Nat) : Int)) ∧
      (∀ i, ¬ inPartition traffic_flow.length size rank i →
        tf[i]? = traffic_flow[i]? ∧ inc[i]? = incidents[i]?) := by
  have _ := hN
  obtain ⟨tf, inc, hres, h1, h2, h3, h4⟩ :=
    trafficSimulation_fill_spec gen traffic_flow incidents rank size hr (le_of_lt hlen)
  refine ⟨tf, inc, hres, h1, h2, fun i hi => ?_, fun i hi => ?_⟩
  · rw [h3 i, h4 i, if_pos hi, if_pos hi, partition_fst]
    exact ⟨rfl, rfl⟩
  · rw [h3 i, h4 i, if_neg hi, if_neg hi]
    exact ⟨rfl, rfl⟩

/-- Witness for the amended C11: `traffic_flow` of length 4, `incidents` of length 6,
rank 1 of 2. -/
theorem C11_no_length_check_witness :
    (List.length [(0 : Int), 0, 0, 0] ≤ INT_MAX ∧ (1 : Nat) < 2 ∧
      List.length [(0 : Int), 0, 0, 0] < List.length [(5 : Int), 5, 5, 5, 5, 5]) ∧
    ∃ tf inc,
      trafficSimulation_fill (fun seed k => seed + k) [0, 0, 0, 0] [5, 5, 5, 5, 5, 5] 1 2
        = some (tf, inc) ∧
      tf.length = List.length [(0 : Int), 0, 0, 0] ∧
      inc.length = List.length [(5 : Int), 5, 5, 5, 5, 5] ∧
      (∀ i, inPartition (List.length [(0 : Int), 0, 0, 0]) 2 1 i →
        tf[i]? = some (((fun seed k => seed + k) 1
            (2 * (i - (partition (List.length [(0 : Int), 0, 0, 0]) 2 1).1)) % 100 : Nat) : Int) ∧
        inc[i]? = some (((fun seed k => seed + k) 1
            (2 * (i - (partition (List.length [(0 : Int), 0, 0, 0]) 2 1).1) + 1) % 2 : Nat)
            : Int)) ∧
      (∀ i, ¬ inPartition (List.length [(0 : Int), 0, 0, 0]) 2 1 i →
        tf[i]? = [(0 : Int), 0, 0, 0][i]? ∧ inc[i]? = [(5 : Int), 5, 5, 5, 5, 5][i]?) :=
  ⟨by decide,
    C11_no_length_check (fun seed k => seed + k) [0, 0, 0, 0] [5, 5, 5, 5, 5, 5] 1 2
      (by decide) (by decide) (by decide)⟩

/-! ## Claim C12: frame of the fill phase -/

/-- C12 (fill-phase frame): for a dataset of length `N` within `int`, `W >= 1` and
`w < W`, the fill
loop of a monitoring function run by worker `w` (any loop body; `trafficFlowMonitoring`
in particular) runs to the end, keeps the length, and every element at an index outside
`[start, end)` of `w`'s own partition has the same value after the fill as before. -/
theorem C12_fill_frame (N W w : Nat) (hN : N ≤ INT_MAX) (hW : 1 ≤ W) (hw : w < W) :
    (∀ (payload : Nat → Nat → Nat → Int) (data : List Int), data.length = N →
      ∃ d, fillPartition payload data w W = some d ∧ d.length = N ∧
        ∀ i, ¬ ((partition N W w).1 ≤ i ∧ i < (partition N W w).2) → d[i]? = data[i]?) ∧
    (∀ (gen : Nat → Nat → Nat) (vehicle_data : List Int), vehicle_data.length = N →
      ∃ d, trafficFlowMonitoring_fill gen vehicle_data w W = some d ∧ d.length = N ∧
        ∀ i, ¬ ((partition N W w).1 ≤ i ∧ i < (partition N W w).2) →
          d[i]? = vehicle_data[i]?) := by
  have _ := hW
  have _ := hN
  have key : ∀ (payload : Nat → Nat → Nat → Int) (data : List Int), data.length = N →
      ∃ d, fillPartition payload data w W = some d ∧ d.length = N ∧
        ∀ i, ¬ ((partition N W w).1 ≤ i ∧ i < (partition N W w).2) → d[i]? = data[i]? := by
    intro payload data hlen
    obtain ⟨d, hd, hdl, hv⟩ := fillPartition_spec payload data w W hw
    refine ⟨d, hd, by rw [hdl, hlen], fun i hi => ?_⟩
    have hi' : ¬ inPartition N W w i := hi
    rw [hv i, hlen, if_neg hi']
  exact ⟨key, fun gen vehicle_data hlen => key (randPayload gen 100) vehicle_data hlen⟩

/-- Witness for C12 at `N = 10`, `W = 3`, `w = 1`. -/
theorem C12_fill_frame_witness :
    (10 ≤ INT_MAX ∧ (1 : Nat) ≤ 3 ∧ (1 : Nat) < 3) ∧
    ((∀ (payload : Nat → Nat → Nat → Int) (data : List Int), data.length = 10 →
      ∃ d, fillPartition payload data 1 3 = some d ∧ d.length = 10 ∧
        ∀ i, ¬ ((partition 10 3 1).1 ≤ i ∧ i < (partition 10 3 1).2) → d[i]? = data[i]?) ∧
    (∀ (gen : Nat → Nat → Nat) (vehicle_data : List Int), vehicle_data.length = 10 →
      ∃ d, trafficFlowMonitoring_fill gen vehicle_data 1 3 = some d ∧ d.length = 10 ∧
        ∀ i, ¬ ((partition 10 3 1).1 ≤ i ∧ i < (partition 10 3 1).2) →
          d[i]? = vehicle_data[i]?)) :=
  ⟨by decide, C12_fill_frame 10 3 1 (by decide) (by decide) (by decide)⟩

/-! ## Claim C13: the kernel accumulates -/

/-- C13 (accumulation): for `n >= 1` within `int`, `n`-by-`n` matrices `A`, `B` and any
initial `n`-by-`n` result `R`, with no `int` overflow in the call, the call leaves
`result[i][j] = R[i][j] + sum over k of A[i][k] * B[k][j]`; the output is the product
exactly when `R` is all zeros; and when a second call on the output does not overflow
either, it adds the product once more, so two calls from the zero result yield twice
the product. -/
theorem C13_kernel_accumulates (n : Nat) (A B R : Matrix) (hn : 0 < n) (hmax : n ≤ INT_MAX)
    (hA : HasDims n n A) (hB : HasDims n n B) (hR : HasDims n n R)
    (hno : NoOverflow n n n A B R) :
    ∃ C1, matrixMultiplication A B R = some C1 ∧ HasDims n n C1 ∧
      (∀ i j, i < n → j < n →
        C1.entry i j = R.entry i j + ∑ k in Finset.range n, A.entry i k * B.entry k j) ∧
      ((∀ i j, i < n → j < n →
          C1.entry i j = ∑ k in Finset.range n, A.entry i k * B.entry k j) ↔
        (∀ i j, i < n → j < n → R.entry i j = 0)) ∧
      (NoOverflow n n n A B C1 →
        ∃ C2, matrixMultiplication A B C1 = some C2 ∧ HasDims n n C2 ∧
          (∀ i j, i < n → j < n →
            C2.entry i j
              = R.entry i j + 2 * ∑ k in Finset.range n, A.entry i k * B.entry k j) ∧
          ((∀ i j, i < n → j < n → R.entry i j = 0) →
            ∀ i j, i < n → j < n →
              C2.entry i j = 2 * ∑ k in Finset.range n, A.entry i k * B.entry k j)) := by
  have _ := hmax
  obtain ⟨C1, hC1, hd1, he1⟩ := matrixMultiplication_spec hA hB (le_refl n) hn hR hno
  refine ⟨C1, hC1, hd1, he1, ⟨fun h i j hi hj => ?_, fun h i j hi hj => ?_⟩, fun hno2 => ?_⟩
  · have e1 := he1 i j hi hj
    rw [h i j hi hj] at e1
    linarith
  · rw [he1 i j hi hj, h i j hi hj, zero_add]
  · obtain ⟨C2, hC2, hd2, he2⟩ := matrixMultiplication_spec hA hB (le_refl n) hn hd1 hno2
    have h2 : ∀ i j, i < n → j < n →
        C2.entry i j
          = R.entry i j + 2 * ∑ k in Finset.range n, A.entry i k * B.entry k j := by
      intro i j hi hj
      rw [he2 i j hi hj, he1 i j hi hj]; ring
    refine ⟨C2, hC2, hd2, h2, fun h i j hi hj => ?_⟩
    rw [h2 i j hi hj, h i j hi hj, zero_add]

/-- Witness for C13 on 2-by-2 matrices with a non-zero initial result; the first call
returns `[[29, 42], [73, 90]]`, on which the second call does not overflow either. -/
theorem C13_kernel_accumulates_witness :
    (0 < 2 ∧ 2 ≤ INT_MAX ∧ HasDims 2 2 [[1, 2], [3, 4]] ∧ HasDims 2 2 [[5, 6], [7, 8]] ∧
      HasDims 2 2 [[10, 20], [30, 40]] ∧
      NoOverflow 2 2 2 [[1, 2], [3, 4]] [[5, 6], [7, 8]] [[10, 20], [30, 40]]) ∧
    (matrixMultiplication [[1, 2], [3, 4]] [[5, 6], [7, 8]] [[10, 20], [30, 40]]
        = some [[29, 42], [73, 90]] ∧
      NoOverflow 2 2 2 [[1, 2], [3, 4]] [[5, 6], [7, 8]] [[29, 42], [73, 90]] ∧
      matrixMultiplication [[1, 2], [3, 4]] [[5, 6], [7, 8]] [[29, 42], [73, 90]]
        = some [[48, 64], [116, 140]]) ∧
    ∃ C1, matrixMultiplication [[1, 2], [3, 4]] [[5, 6], [7, 8]] [[10, 20], [30, 40]]
        = some C1 ∧ HasDims 2 2 C1 ∧
      (∀ i j, i < 2 → j < 2 →
        C1.entry i j = Matrix.entry [[10, 20], [30, 40]] i j +
          ∑ k in Finset.range 2,
            Matrix.entry [[1, 2], [3, 4]] i k * Matrix.entry [[5, 6], [7, 8]] k j) ∧
      ((∀ i j, i < 2 → j < 2 →
          C1.entry i j = ∑ k in Finset.range 2,
            Matrix.entry [[1, 2], [3, 4]] i k * Matrix.entry [[5, 6], [7, 8]] k j) ↔
        (∀ i j, i < 2 → j < 2 → Matrix.entry [[10, 20], [30, 40]] i j = 0)) ∧
      (NoOverflow 2 2 2 [[1, 2], [3, 4]] [[5, 6], [7, 8]] C1 →
        ∃ C2, matrixMultiplication [[1, 2], [3, 4]] [[5, 6], [7, 8]] C1 = some C2 ∧
          HasDims 2 2 C2 ∧
          (∀ i j, i < 2 → j < 2 →
            C2.entry i j = Matrix.entry [[10, 20], [30, 40]] i j +
              2 * ∑ k in Finset.range 2,
                Matrix.entry [[1, 2], [3, 4]] i k * Matrix.entry [[5, 6], [7, 8]] k j) ∧
          ((∀ i j, i < 2 → j < 2 → Matrix.entry [[10, 20], [30, 40]] i j = 0) →
            ∀ i j, i < 2 → j < 2 →
              C2.entry i j = 2 * ∑ k in Finset.range 2,
                Matrix.entry [[1, 2], [3, 4]] i k * Matrix.entry [[5, 6], [7, 8]] k j)) :=
  ⟨⟨by decide, by decide, by decide, by decide, by decide, by decide⟩,
    ⟨by decide, by decide, by decide⟩,
    C13_kernel_accumulates 2 [[1, 2], [3, 4]] [[5, 6], [7, 8]] [[10, 20], [30, 40]]
      (by decide) (by decide) (by decide) (by decide) (by decide) (by decide)⟩

end TrafficControl
